import Mathlib

/-!
Shallow embedding of the django-db-views repository (files
`django_db_views/autodetector.py` and `django_db_views/operations.py`)
and proofs about the claims of its specification.

Python strings are modelled as `String` / `List Char`; machine behaviour that
matters (ASCII case mapping, whitespace stripping) is implemented directly on
character lists so that every definition evaluates by kernel reduction.
-/

namespace DjangoDbViews

/-! ## ASCII character utilities (Python `str.upper` / `str.lower` on ASCII) -/

theorem char_toNat_ofNat (n : Nat) (h : n < 55296) : (Char.ofNat n).toNat = n := by
  have hv : Nat.isValidChar n := Or.inl h
  unfold Char.ofNat
  rw [dif_pos hv]
  simp [Char.toNat, Char.ofNatAux, UInt32.ofNat', UInt32.toNat]

theorem char_eq_of_toNat_eq {a b : Char} (h : a.toNat = b.toNat) : a = b := by
  have ha := Char.ofNat_toNat a
  rw [h, Char.ofNat_toNat] at ha
  exact ha.symm

theorem char_toNat_lt (c : Char) : c.toNat < 1114112 := by
  rcases c.valid with h | ⟨_, h⟩
  · exact Nat.lt_trans h (by norm_num)
  · exact h

theorem toUpper_toNat (c : Char) :
    (Char.toUpper c).toNat =
      if 97 ≤ c.toNat ∧ c.toNat ≤ 122 then c.toNat - 32 else c.toNat := by
  simp only [Char.toUpper, ge_iff_le]
  split
  · next h => exact char_toNat_ofNat _ (by omega)
  · rfl

theorem toLower_toNat (c : Char) :
    (Char.toLower c).toNat =
      if 65 ≤ c.toNat ∧ c.toNat ≤ 90 then c.toNat + 32 else c.toNat := by
  simp only [Char.toLower, ge_iff_le]
  split
  · next h => exact char_toNat_ofNat _ (by omega)
  · rfl

theorem toUpper_toUpper (c : Char) : c.toUpper.toUpper = c.toUpper := by
  apply char_eq_of_toNat_eq
  rw [toUpper_toNat, toUpper_toNat]
  split_ifs <;> omega

theorem toLower_toLower (c : Char) : c.toLower.toLower = c.toLower := by
  apply char_eq_of_toNat_eq
  rw [toLower_toNat, toLower_toNat]
  split_ifs <;> omega

theorem toUpper_toLower (c : Char) : c.toLower.toUpper = c.toUpper := by
  apply char_eq_of_toNat_eq
  rw [toUpper_toNat, toLower_toNat, toUpper_toNat]
  split_ifs <;> omega

theorem toLower_toUpper (c : Char) : c.toUpper.toLower = c.toLower := by
  apply char_eq_of_toNat_eq
  rw [toLower_toNat, toUpper_toNat, toLower_toNat]
  split_ifs <;> omega

/-- Whitespace characters recognised by the normalizer (space, tab, newline,
carriage return), the characters Python treats as insignificant in SQL. -/
def isWsChar (c : Char) : Bool :=
  c.toNat == 32 || c.toNat == 9 || c.toNat == 10 || c.toNat == 13

/-- SQL word characters: ASCII letters, digits and underscore. -/
def isWordChar (c : Char) : Bool :=
  (65 ≤ c.toNat && c.toNat ≤ 90) || (97 ≤ c.toNat && c.toNat ≤ 122) ||
    (48 ≤ c.toNat && c.toNat ≤ 57) || c.toNat == 95

theorem not_ws_of_word {c : Char} (h : isWordChar c = true) : isWsChar c = false := by
  simp only [isWordChar, Bool.or_eq_true, Bool.and_eq_true,
    decide_eq_true_eq, beq_iff_eq] at h
  simp only [isWsChar, Bool.or_eq_false_iff, beq_eq_false_iff_ne, ne_eq]
  omega

theorem isWordChar_toUpper (c : Char) : isWordChar c.toUpper = isWordChar c := by
  simp only [isWordChar, toUpper_toNat]
  split
  · next h =>
    rw [Bool.eq_iff_iff]
    simp only [Bool.or_eq_true, Bool.and_eq_true, decide_eq_true_eq, beq_iff_eq]
    omega
  · rfl

theorem isWordChar_toLower (c : Char) : isWordChar c.toLower = isWordChar c := by
  simp only [isWordChar, toLower_toNat]
  split
  · next h =>
    rw [Bool.eq_iff_iff]
    simp only [Bool.or_eq_true, Bool.and_eq_true, decide_eq_true_eq, beq_iff_eq]
    omega
  · rfl

/-! ## SQL normalizer

Modelled from the spec: `is_same_views` in `autodetector.py` delegates the
actual canonicalization to the external `sqlparse.format` library (with
keyword-case upper, identifier-case lower, reindent, compact and
strip-comments options) followed by a whitespace strip; that library is not
part of this repository, so the normalizer below is modelled from the spec's
contract: whitespace, keyword-case and identifier-case canonicalization,
comment stripping, and trimming of surrounding statement separators. -/

/-- Reads the maximal leading run of word characters, returning it together
with the remaining characters. -/
def readWord : List Char → List Char × List Char
  | [] => ([], [])
  | c :: cs =>
    if isWordChar c then
      let p := readWord cs
      (c :: p.1, p.2)
    else ([], c :: cs)

theorem readWord_snd_length (l : List Char) : (readWord l).2.length ≤ l.length := by
  induction l with
  | nil => simp [readWord]
  | cons c cs ih =>
    simp only [readWord]
    split
    · exact Nat.le_succ_of_le ih
    · exact Nat.le_refl _

/-- Skips the remainder of a line comment, leaving the terminating newline. -/
def skipLine (l : List Char) : List Char :=
  l.dropWhile (fun c => !(c == '\n'))

theorem length_dropWhile_le {α : Type} (p : α → Bool) (l : List α) :
    (l.dropWhile p).length ≤ l.length := by
  induction l with
  | nil => simp [List.dropWhile]
  | cons a l ih =>
    simp only [List.dropWhile]
    split
    · exact Nat.le_succ_of_le ih
    · exact Nat.le_refl _

/-- Skips the remainder of a block comment, consuming the closing delimiter. -/
def skipBlock : List Char → List Char
  | [] => []
  | c :: cs => if c == '*' && cs.head? == some '/' then cs.tail else skipBlock cs

theorem tail_length_le {α : Type} (l : List α) : l.tail.length ≤ l.length := by
  cases l <;> simp

theorem skipBlock_length (l : List Char) : (skipBlock l).length ≤ l.length := by
  induction l with
  | nil => simp [skipBlock]
  | cons c cs ih =>
    simp only [skipBlock]
    split
    · exact Nat.le_succ_of_le (tail_length_le cs)
    · exact Nat.le_succ_of_le ih

/-- Splits SQL text into tokens: maximal word runs and single punctuation
characters, skipping whitespace and stripping line and block comments.
Structural recursion on a fuel bound so that the kernel can evaluate it;
`tokenize` below supplies adequate fuel. -/
def tokenizeF : Nat → List Char → List (List Char)
  | 0, _ => []
  | _, [] => []
  | fuel + 1, c :: cs =>
    if isWsChar c then tokenizeF fuel cs
    else if isWordChar c then
      (c :: (readWord cs).1) :: tokenizeF fuel (readWord cs).2
    else if c == '-' && cs.head? == some '-' then tokenizeF fuel (skipLine cs)
    else if c == '/' && cs.head? == some '*' then tokenizeF fuel (skipBlock cs.tail)
    else [c] :: tokenizeF fuel cs

theorem tokenizeF_congr :
    ∀ (f1 f2 : Nat) (l : List Char), l.length < f1 → l.length < f2 →
      tokenizeF f1 l = tokenizeF f2 l := by
  intro f1
  induction f1 with
  | zero => intro f2 l h1 _; omega
  | succ n ih =>
    intro f2 l h1 h2
    match f2, l with
    | m + 1, [] => rfl
    | m + 1, c :: cs =>
      simp only [List.length_cons] at h1 h2
      simp only [tokenizeF]
      have hcs : cs.length < n := by omega
      have hcs2 : cs.length < m := by omega
      split
      · exact ih m cs hcs hcs2
      · split
        · have hr := readWord_snd_length cs
          rw [ih m (readWord cs).2 (by omega) (by omega)]
        · split
          · have hs := length_dropWhile_le (fun c => !(c == '\n')) cs
            rw [ih m (skipLine cs) (by simp only [skipLine]; omega)
              (by simp only [skipLine]; omega)]
          · split
            · have hb := skipBlock_length cs.tail
              have ht := tail_length_le cs
              rw [ih m (skipBlock cs.tail) (by omega) (by omega)]
            · rw [ih m cs hcs hcs2]

/-- Tokenization with adequate fuel. -/
def tokenize (l : List Char) : List (List Char) :=
  tokenizeF (l.length + 1) l

theorem tokenize_nil : tokenize [] = [] := rfl

theorem tokenize_cons (c : Char) (cs : List Char) :
    tokenize (c :: cs) =
      if isWsChar c then tokenize cs
      else if isWordChar c then
        (c :: (readWord cs).1) :: tokenize (readWord cs).2
      else if c == '-' && cs.head? == some '-' then tokenize (skipLine cs)
      else if c == '/' && cs.head? == some '*' then tokenize (skipBlock cs.tail)
      else [c] :: tokenize cs := by
  have hr := readWord_snd_length cs
  have hs := length_dropWhile_le (fun c => !(c == '\n')) cs
  have hb := skipBlock_length cs.tail
  have ht := tail_length_le cs
  show tokenizeF (cs.length + 2) (c :: cs) = _
  simp only [tokenizeF, tokenize]
  split
  · exact tokenizeF_congr (cs.length + 1) (cs.length + 1) cs (by omega) (by omega)
  · split
    · rw [tokenizeF_congr (cs.length + 1) ((readWord cs).2.length + 1)
        (readWord cs).2 (by omega) (by omega)]
    · split
      · exact tokenizeF_congr (cs.length + 1) ((skipLine cs).length + 1)
          (skipLine cs) (by simp only [skipLine]; omega) (by omega)
      · split
        · exact tokenizeF_congr (cs.length + 1) ((skipBlock cs.tail).length + 1)
            (skipBlock cs.tail) (by omega) (by omega)
        · rw [tokenizeF_congr (cs.length + 1) (cs.length + 1) cs (by omega) (by omega)]

/-- SQL keywords recognised by the normalizer, in canonical upper case. -/
def sqlKeywords : List (List Char) :=
  ["SELECT", "FROM", "WHERE", "AND", "OR", "NOT", "AS", "JOIN", "INNER",
   "LEFT", "RIGHT", "FULL", "OUTER", "CROSS", "ON", "GROUP", "BY", "ORDER",
   "HAVING", "UNION", "ALL", "DISTINCT", "CASE", "WHEN", "THEN", "ELSE",
   "END", "NULL", "IS", "IN", "LIKE", "BETWEEN", "EXISTS", "LIMIT",
   "OFFSET", "ASC", "DESC", "WITH", "USING", "COUNT", "SUM", "AVG", "MIN",
   "MAX"].map String.data

/-- True when the word is a SQL keyword, compared case-insensitively. -/
def isKeyword (w : List Char) : Bool :=
  sqlKeywords.contains (w.map Char.toUpper)

/-- Canonicalizes the case of one token: keywords become upper case,
identifiers become lower case, punctuation is unchanged. -/
def caseTok (t : List Char) : List Char :=
  if t.all isWordChar then
    if isKeyword t then t.map Char.toUpper else t.map Char.toLower
  else t

/-- Drops trailing statement separators (semicolon tokens). -/
def dropTrailingSemis (ts : List (List Char)) : List (List Char) :=
  (ts.reverse.dropWhile (fun t => t == [';'])).reverse

/-- Token-level canonicalization: case mapping then separator trimming. -/
def canonToks (ts : List (List Char)) : List (List Char) :=
  dropTrailingSemis (ts.map caseTok)

/-- Renders a token list back to text with single spaces between tokens. -/
def render : List (List Char) → List Char
  | [] => []
  | [t] => t
  | t :: ts => t ++ ' ' :: render ts

/-- Normalization of SQL text at the character-list level. -/
def sqlNormalizeChars (s : List Char) : List Char :=
  render (canonToks (tokenize s))

/-- Modelled from the spec: the `sql_normalize` canonicalizer inside
`is_same_views` (`sqlparse.format` with keyword-case upper, identifier-case
lower, reindent, compact, strip-comments, followed by `.strip()`). -/
def sql_normalize (s : String) : String :=
  String.mk (sqlNormalizeChars s.data)

/-- Embeds `ViewMigrationAutoDetector.is_same_views`: two view definitions
are the same exactly when their normalized forms are equal. -/
def is_same_views (current new : String) : Bool :=
  sql_normalize current == sql_normalize new

/-! ## Idempotence of the normalizer -/

/-- Well-formed tokens produced by tokenization: a nonempty word run, or a
single non-word, non-whitespace punctuation character. -/
def GoodTok (t : List Char) : Prop :=
  t ≠ [] ∧ ((∀ c ∈ t, isWordChar c = true) ∨
    (∃ c, t = [c] ∧ isWordChar c = false ∧ isWsChar c = false))

theorem readWord_all {l : List Char} (h : ∀ c ∈ l, isWordChar c = true) :
    readWord l = (l, []) := by
  induction l with
  | nil => rfl
  | cons c cs ih =>
    simp only [readWord, h c (by simp)]
    rw [ih (fun d hd => h d (by simp [hd]))]
    simp

theorem readWord_append_stop {w : List Char} {x : Char} {r : List Char}
    (hw : ∀ c ∈ w, isWordChar c = true) (hx : isWordChar x = false) :
    readWord (w ++ x :: r) = (w, x :: r) := by
  induction w with
  | nil => simp [readWord, hx]
  | cons c cs ih =>
    have hc := hw c (by simp)
    simp [readWord, hc, ih (fun d hd => hw d (by simp [hd]))]

theorem readWord_fst_all (l : List Char) :
    ∀ c ∈ (readWord l).1, isWordChar c = true := by
  induction l with
  | nil => simp [readWord]
  | cons c cs ih =>
    simp only [readWord]
    split
    · next h =>
      intro d hd
      rcases List.mem_cons.mp hd with rfl | hd
      · exact h
      · exact ih d hd
    · simp

theorem tokenize_good_aux :
    ∀ (n : Nat) (l : List Char), l.length ≤ n → ∀ t ∈ tokenize l, GoodTok t := by
  intro n
  induction n with
  | zero =>
    intro l hl t ht
    have : l = [] := List.length_eq_zero.mp (Nat.le_zero.mp hl)
    subst this
    simp [tokenize_nil] at ht
  | succ n ih =>
    intro l hl t ht
    match l with
    | [] => simp [tokenize_nil] at ht
    | c :: cs =>
      simp only [List.length_cons] at hl
      rw [tokenize_cons] at ht
      split at ht
      · exact ih cs (by omega) t ht
      · split at ht
        · next hword =>
          rcases List.mem_cons.mp ht with rfl | ht
          · refine ⟨by simp, Or.inl ?_⟩
            intro d hd
            rcases List.mem_cons.mp hd with rfl | hd
            · exact hword
            · exact readWord_fst_all cs d hd
          · have := readWord_snd_length cs
            exact ih (readWord cs).2 (by omega) t ht
        · split at ht
          · have := length_dropWhile_le (fun c => !(c == '\n')) cs
            exact ih (skipLine cs) (by simp only [skipLine]; omega) t ht
          · split at ht
            · have := skipBlock_length cs.tail
              have := tail_length_le cs
              exact ih (skipBlock cs.tail) (by omega) t ht
            · next hws hword _ _ =>
              rcases List.mem_cons.mp ht with rfl | ht
              · exact ⟨by simp, Or.inr ⟨c, rfl, by simpa using hword,
                  by simpa using hws⟩⟩
              · exact ih cs (by omega) t ht

theorem tokenize_good (l : List Char) : ∀ t ∈ tokenize l, GoodTok t :=
  tokenize_good_aux l.length l (Nat.le_refl _)

theorem tokenize_good_single {t : List Char} (h : GoodTok t) : tokenize t = [t] := by
  obtain ⟨hne, hw | ⟨c, rfl, hcw, hcs⟩⟩ := h
  · match t, hne with
    | c :: w, _ =>
      rw [tokenize_cons, not_ws_of_word (hw c (by simp))]
      simp only [hw c (by simp), if_true]
      rw [readWord_all (fun d hd => hw d (by simp [hd]))]
      simp [tokenize_nil]
  · rw [tokenize_cons, hcs, hcw]
    simp [tokenize_nil]

theorem tokenize_good_space {t r : List Char} (h : GoodTok t) :
    tokenize (t ++ ' ' :: r) = t :: tokenize r := by
  have hskip : tokenize (' ' :: r) = tokenize r := by
    rw [tokenize_cons]
    simp [isWsChar]
  obtain ⟨hne, hw | ⟨c, rfl, hcw, hcs⟩⟩ := h
  · match t, hne with
    | c :: w, _ =>
      rw [List.cons_append, tokenize_cons, not_ws_of_word (hw c (by simp))]
      simp only [hw c (by simp), if_true]
      rw [readWord_append_stop (fun d hd => hw d (by simp [hd])) (by decide)]
      simp [hskip]
  · rw [List.singleton_append, tokenize_cons, hcs, hcw]
    simp [hskip]

theorem tokenize_render :
    ∀ (ts : List (List Char)), (∀ t ∈ ts, GoodTok t) → tokenize (render ts) = ts := by
  intro ts
  induction ts with
  | nil => intro _; exact tokenize_nil
  | cons t ts ih =>
    intro h
    match ts, ih with
    | [], _ => exact tokenize_good_single (h t (by simp))
    | t' :: ts', ih =>
      show tokenize (t ++ ' ' :: render (t' :: ts')) = _
      rw [tokenize_good_space (h t (by simp)), ih (fun u hu => h u (by simp [hu]))]

theorem toUpper_eq_semi {c : Char} (h : Char.toUpper c = ';') : c = ';' := by
  have hn := congrArg Char.toNat h
  rw [toUpper_toNat, show (';' : Char).toNat = 59 from rfl] at hn
  split at hn
  · omega
  · exact char_eq_of_toNat_eq (by rw [hn]; rfl)

theorem toLower_eq_semi {c : Char} (h : Char.toLower c = ';') : c = ';' := by
  have hn := congrArg Char.toNat h
  rw [toLower_toNat, show (';' : Char).toNat = 59 from rfl] at hn
  split at hn
  · omega
  · exact char_eq_of_toNat_eq (by rw [hn]; rfl)

theorem map_eq_singleton {f : Char → Char} {t : List Char} {c : Char}
    (h : t.map f = [c]) : ∃ d, t = [d] ∧ f d = c := by
  cases t with
  | nil => simp at h
  | cons a t' =>
    cases t' with
    | nil => exact ⟨a, rfl, by simpa using h⟩
    | cons b t'' => simp at h

theorem caseTok_semi (t : List Char) : caseTok t = [';'] ↔ t = [';'] := by
  constructor
  · intro h
    by_cases hall : t.all isWordChar
    · by_cases hk : isKeyword t
      · simp only [caseTok, hall, if_true, hk] at h
        obtain ⟨d, rfl, hd⟩ := map_eq_singleton h
        have := toUpper_eq_semi hd
        subst this
        simp [List.all_cons, isWordChar] at hall
      · simp only [caseTok, hall, if_true, hk, if_false] at h
        obtain ⟨d, rfl, hd⟩ := map_eq_singleton h
        have := toLower_eq_semi hd
        subst this
        simp [List.all_cons, isWordChar] at hall
    · unfold caseTok at h
      rw [if_neg hall] at h
      exact h
  · intro h
    subst h
    rfl

theorem caseTok_word_key {t : List Char} (hall : t.all isWordChar = true)
    (hk : isKeyword t = true) : caseTok t = t.map Char.toUpper := by
  unfold caseTok
  rw [if_pos hall, if_pos hk]

theorem caseTok_word_nonkey {t : List Char} (hall : t.all isWordChar = true)
    (hk : isKeyword t = false) : caseTok t = t.map Char.toLower := by
  unfold caseTok
  rw [if_pos hall, if_neg (by rw [hk]; exact Bool.false_ne_true)]

theorem caseTok_nonword {t : List Char} (hall : ¬ t.all isWordChar = true) :
    caseTok t = t := by
  unfold caseTok
  rw [if_neg hall]

theorem caseTok_idem (t : List Char) : caseTok (caseTok t) = caseTok t := by
  by_cases hall : t.all isWordChar = true
  · by_cases hk : isKeyword t = true
    · rw [caseTok_word_key hall hk]
      have hall2 : (t.map Char.toUpper).all isWordChar = true := by
        rw [List.all_map,
          show (isWordChar ∘ Char.toUpper) = isWordChar from funext isWordChar_toUpper]
        exact hall
      have hk2 : isKeyword (t.map Char.toUpper) = true := by
        unfold isKeyword at hk ⊢
        rw [List.map_map,
          show (Char.toUpper ∘ Char.toUpper) = Char.toUpper from funext toUpper_toUpper]
        exact hk
      rw [caseTok_word_key hall2 hk2, List.map_map,
        show (Char.toUpper ∘ Char.toUpper) = Char.toUpper from funext toUpper_toUpper]
    · have hkf : isKeyword t = false := by
        revert hk; cases isKeyword t <;> simp
      rw [caseTok_word_nonkey hall hkf]
      have hall2 : (t.map Char.toLower).all isWordChar = true := by
        rw [List.all_map,
          show (isWordChar ∘ Char.toLower) = isWordChar from funext isWordChar_toLower]
        exact hall
      have hk2 : isKeyword (t.map Char.toLower) = false := by
        unfold isKeyword at hkf ⊢
        rw [List.map_map,
          show (Char.toUpper ∘ Char.toLower) = Char.toUpper from funext toUpper_toLower]
        exact hkf
      rw [caseTok_word_nonkey hall2 hk2, List.map_map,
        show (Char.toLower ∘ Char.toLower) = Char.toLower from funext toLower_toLower]
  · rw [caseTok_nonword hall, caseTok_nonword hall]

theorem caseTok_good {t : List Char} (h : GoodTok t) : GoodTok (caseTok t) := by
  obtain ⟨hne, hw | ⟨c, rfl, hcw, hcs⟩⟩ := h
  · refine ⟨?_, Or.inl ?_⟩
    · unfold caseTok
      split
      · split <;> simp [hne]
      · exact hne
    · intro d hd
      unfold caseTok at hd
      split at hd
      · split at hd <;>
          · obtain ⟨e, he, rfl⟩ := List.mem_map.mp hd
            first
              | rw [isWordChar_toUpper]; exact hw e he
              | rw [isWordChar_toLower]; exact hw e he
      · exact hw d hd
  · have : caseTok [c] = [c] := by
      unfold caseTok
      simp [hcw]
    rw [this]
    exact ⟨by simp, Or.inr ⟨c, rfl, hcw, hcs⟩⟩

theorem dropWhile_self {α : Type} (p : α → Bool) (l : List α) :
    (l.dropWhile p).dropWhile p = l.dropWhile p := by
  induction l with
  | nil => rfl
  | cons a l ih =>
    by_cases h : p a
    · simp [List.dropWhile_cons, h, ih]
    · simp [List.dropWhile_cons, h]

theorem dropTrail_idem (ts : List (List Char)) :
    dropTrailingSemis (dropTrailingSemis ts) = dropTrailingSemis ts := by
  simp [dropTrailingSemis, List.reverse_reverse, dropWhile_self]

theorem caseTok_beq_semi (t : List Char) : (caseTok t == [';']) = (t == [';']) := by
  rw [Bool.eq_iff_iff]
  simp [caseTok_semi]

theorem map_dropTrail (ts : List (List Char)) :
    (dropTrailingSemis ts).map caseTok = dropTrailingSemis (ts.map caseTok) := by
  have hp : ((fun t : List Char => t == [';']) ∘ caseTok) =
      (fun t : List Char => t == [';']) := funext caseTok_beq_semi
  unfold dropTrailingSemis
  rw [show (ts.map caseTok).reverse = ts.reverse.map caseTok from
      (List.map_reverse _ _).symm,
    List.dropWhile_map, hp, List.map_reverse]

theorem map_caseTok_idem (ts : List (List Char)) :
    (ts.map caseTok).map caseTok = ts.map caseTok := by
  rw [List.map_map]
  exact List.map_congr_left (fun t _ => caseTok_idem t)

theorem canonToks_idem (ts : List (List Char)) :
    canonToks (canonToks ts) = canonToks ts := by
  unfold canonToks
  rw [map_dropTrail, map_caseTok_idem, dropTrail_idem]

theorem canonToks_good {ts : List (List Char)} (h : ∀ t ∈ ts, GoodTok t) :
    ∀ t ∈ canonToks ts, GoodTok t := by
  intro t ht
  unfold canonToks dropTrailingSemis at ht
  rw [List.mem_reverse] at ht
  have ht2 := (List.dropWhile_sublist _).mem ht
  rw [List.mem_reverse, List.mem_map] at ht2
  obtain ⟨u, hu, rfl⟩ := ht2
  exact caseTok_good (h u hu)

/-- Modelled from the spec: the normalizer is idempotent at the character level. -/
theorem sqlNormalizeChars_idem (s : List Char) :
    sqlNormalizeChars (sqlNormalizeChars s) = sqlNormalizeChars s := by
  unfold sqlNormalizeChars
  rw [tokenize_render _ (canonToks_good (tokenize_good s)), canonToks_idem]

/-- Claim C9: the SQL normalization function used for view-definition
comparison is idempotent: normalizing an already-normalized string is the
identity. -/
theorem claim_C9_sql_normalize_idempotent (x : String) :
    sql_normalize (sql_normalize x) = sql_normalize x := by
  show String.mk (sqlNormalizeChars (String.mk (sqlNormalizeChars x.data)).data) = _
  rw [show (String.mk (sqlNormalizeChars x.data)).data = sqlNormalizeChars x.data
      from rfl,
    sqlNormalizeChars_idem]
  rfl

/-- Claim C2: `is_same_views` returns true exactly when the normalized forms
of the two SQL strings are equal; normalization makes keyword-case,
identifier-case and whitespace/newline differences irrelevant, strips
comments and trims trailing statement terminators (so definitions differing
only in a trailing semicolon are equivalent), while semantic differences
(column list, filter clause, join) yield false. -/
theorem claim_C2_is_same_views_normalized_equality :
    (∀ a b : String, is_same_views a b = true ↔ sql_normalize a = sql_normalize b)
    ∧ is_same_views "SELECT a FROM t" "select a from t" = true
    ∧ is_same_views "SELECT col_A FROM My_Table" "SELECT col_a FROM my_table" = true
    ∧ is_same_views "SELECT  a,\n  b\nFROM t" "SELECT a, b FROM t" = true
    ∧ is_same_views "SELECT a FROM t -- note" "SELECT a FROM t" = true
    ∧ is_same_views "/* note */ SELECT a FROM t" "SELECT a FROM t" = true
    ∧ is_same_views "SELECT a FROM t;" "SELECT a FROM t" = true
    ∧ is_same_views "SELECT a FROM t" "SELECT a, b FROM t" = false
    ∧ is_same_views "SELECT a FROM t" "SELECT a FROM t WHERE b = 1" = false
    ∧ is_same_views "SELECT a FROM t" "SELECT a FROM t JOIN u ON t.k = u.k" = false := by
  refine ⟨fun a b => ?_, by decide, by decide, by decide, by decide, by decide,
    by decide, by decide, by decide, by decide⟩
  simp [is_same_views, beq_iff_eq]

/-! ## Python string helpers used by `operations.py` and `autodetector.py` -/

/-- Python `str.lower()` on ASCII text. -/
def lowerString (s : String) : String :=
  String.mk (s.data.map Char.toLower)

theorem lowerString_idem (s : String) : lowerString (lowerString s) = lowerString s := by
  unfold lowerString
  rw [show (String.mk (s.data.map Char.toLower)).data = s.data.map Char.toLower from rfl,
    List.map_map,
    show (Char.toLower ∘ Char.toLower) = Char.toLower from funext toLower_toLower]

/-- Python `str.strip()`: removes surrounding whitespace. -/
def pyStrip (s : String) : String :=
  String.mk (((s.data.dropWhile isWsChar).reverse.dropWhile isWsChar).reverse)

/-- Python `str.strip(";")`: removes surrounding semicolons. -/
def stripSemicolons (s : String) : String :=
  String.mk (((s.data.dropWhile (fun c => c == ';')).reverse.dropWhile
    (fun c => c == ';')).reverse)

/-! ## Embedding of `operations.py` -/

/-- Concrete migration-function classes from `migration_functions.py`; only
the class identity (used by `isinstance` checks), the recorded definition,
table and engine matter to the embedded code. -/
inductive FuncKind where
  | forwardView
  | forwardMat
  | backwardView
  | backwardMat
  | dropViewFn
  | dropMatFn
deriving DecidableEq

/-- Data every migration-function object carries: `view_definition`,
`table_name` and `view_engine` (None when not given). -/
structure MigrationFunction where
  kind : FuncKind
  view_definition : String
  table_name : String
  view_engine : Option String
deriving DecidableEq

/-- Migration operations relevant to the embedded code: `ViewRunPython`,
`ViewDropRunPython`, Django's `SeparateDatabaseAndState` wrapper (only its
`database_operations` side is inspected), and anything else. -/
inductive Operation where
  | viewRunPython (code : MigrationFunction) (reverse_code : MigrationFunction)
      (atomic : Bool)
  | viewDropRunPython (code : MigrationFunction) (reverse_code : MigrationFunction)
      (atomic : Bool)
  | separateDatabaseAndState (database_operations : List Operation)
  | otherOperation

/-- Python-level failures of the embedded code. -/
inductive PyErr where
  | assertionError
  | notImplementedError
  | duplicateModelState
  | missingModelState
  | attributeError
  | outOfFuel
deriving DecidableEq

/-- Django settings visible to the code: the default database engine. -/
structure Settings where
  default_engine : String

/-- Embeds `get_table_engine_name_hash` (an engine of `None` renders as the
Python string form of `None`). -/
def get_table_engine_name_hash (table_name : String) (engine : Option String) : String :=
  lowerString (table_name ++ "_" ++ (match engine with | some e => e | none => "None"))

/-- Which view kinds exist: `DBView` and `DBMaterializedView`. -/
inductive BaseClass where
  | dbView
  | dbMaterializedView
deriving DecidableEq

/-- View-specific state attributes attached by `DBViewModelState.__init__`
when the view-migration context flag is set. -/
structure ViewAttrs where
  view_engine : Option String
  view_definition : String
  base_class : BaseClass
  table_name : String
deriving DecidableEq

/-- Model state entries of a Django `ProjectState`: ordinary model states and
`DBViewModelState` instances, which carry the view attributes only when they
were constructed under the view-migration context. -/
structure ModelStateE where
  app_label : String
  name : String
  is_db_view_state : Bool
  view_attrs : Option ViewAttrs
deriving DecidableEq

/-- Embeds `DBViewModelState.__init__`: the view-specific attributes are
attached only when `VIEW_MIGRATION_CONTEXT["is_view_migration"]` is true. -/
def DBViewModelState_init (is_view_migration : Bool) (app_label name : String)
    (view_engine : Option String) (view_definition : String)
    (base_class : BaseClass) (table_name : String) : ModelStateE :=
  { app_label := app_label, name := name, is_db_view_state := true,
    view_attrs :=
      if is_view_migration then
        some ⟨view_engine, view_definition, base_class, table_name⟩
      else none }

/-- Django project state: models keyed by `(app_label, name_lower)`. -/
structure ProjectState where
  models : List ((String × String) × ModelStateE)
deriving DecidableEq

/-- Modelled from the spec: the host state container's `add_model`; the
spec relies on the host's duplicate-model-state check, so registering a
second entry under an existing key fails loudly. -/
def add_model (st : ProjectState) (ms : ModelStateE) : Except PyErr ProjectState :=
  let key := (ms.app_label, lowerString ms.name)
  if st.models.any (fun kv => kv.1 == key) then .error .duplicateModelState
  else .ok ⟨st.models ++ [(key, ms)]⟩

/-- Modelled from the spec: the host state container's `remove_model`;
removing an absent key is a loud failure (Python `del` raises `KeyError`). -/
def remove_model (st : ProjectState) (app_label model_name : String) :
    Except PyErr ProjectState :=
  let key := (app_label, model_name)
  if st.models.any (fun kv => kv.1 == key) then
    .ok ⟨st.models.filter (fun kv => !(kv.1 == key))⟩
  else .error .missingModelState

/-- Base class chosen by `ViewRunPython.state_forwards` from the type of its
forward migration function (`NotImplementedError` otherwise). -/
def forward_base_class : FuncKind → Option BaseClass
  | .forwardMat => some .dbMaterializedView
  | .forwardView => some .dbView
  | _ => none

/-- Embeds `ViewRunPython.state_forwards`. -/
def ViewRunPython_state_forwards (is_view_migration : Bool)
    (code : MigrationFunction) (app_label : String) (state : ProjectState) :
    Except PyErr ProjectState :=
  if is_view_migration then
    match forward_base_class code.kind with
    | none => .error .notImplementedError
    | some model =>
      add_model state
        (DBViewModelState_init is_view_migration app_label
          (get_table_engine_name_hash code.table_name code.view_engine)
          code.view_engine code.view_definition model code.table_name)
  else .ok state

/-- Embeds `ViewDropRunPython.state_forwards`. -/
def ViewDropRunPython_state_forwards (is_view_migration : Bool)
    (code : MigrationFunction) (app_label : String) (state : ProjectState) :
    Except PyErr ProjectState :=
  if is_view_migration then
    remove_model state app_label
      (get_table_engine_name_hash code.table_name code.view_engine)
  else .ok state

theorem hash_lower (t : String) (e : Option String) :
    lowerString (get_table_engine_name_hash t e) = get_table_engine_name_hash t e :=
  lowerString_idem _

theorem countP_not_add {α : Type} (p : α → Bool) (l : List α) :
    l.countP (fun a => !(p a)) + l.countP p = l.length := by
  induction l with
  | nil => simp
  | cons a l ih =>
    by_cases h : p a = true
    · simp [List.countP_cons, h]
      omega
    · have h2 : p a = false := by revert h; cases p a <;> simp
      simp [List.countP_cons, h2]
      omega

/-- Claim C3: with the view-migration context active, a Create/Replace-Forward
`ViewRunPython.state_forwards` adds exactly one `DBViewModelState` entry keyed
by the composite hash of `(table_name, view_engine)` when that key is absent,
and fails loudly on the host's duplicate check when it is present;
`ViewDropRunPython.state_forwards` removes exactly the one entry under that
key. -/
theorem claim_C3_state_add_remove :
    (∀ (code : MigrationFunction) (app_label : String) (st : ProjectState)
      (base : BaseClass),
      forward_base_class code.kind = some base →
      st.models.any (fun kv => kv.1 == (app_label,
        get_table_engine_name_hash code.table_name code.view_engine)) = false →
      ViewRunPython_state_forwards true code app_label st =
        .ok ⟨st.models ++ [((app_label,
            get_table_engine_name_hash code.table_name code.view_engine),
          DBViewModelState_init true app_label
            (get_table_engine_name_hash code.table_name code.view_engine)
            code.view_engine code.view_definition base code.table_name)]⟩)
    ∧ (∀ (code : MigrationFunction) (app_label : String) (st : ProjectState)
      (base : BaseClass),
      forward_base_class code.kind = some base →
      st.models.any (fun kv => kv.1 == (app_label,
        get_table_engine_name_hash code.table_name code.view_engine)) = true →
      ViewRunPython_state_forwards true code app_label st =
        .error .duplicateModelState)
    ∧ (∀ (code : MigrationFunction) (app_label : String) (st : ProjectState),
      st.models.countP (fun kv => kv.1 == (app_label,
        get_table_engine_name_hash code.table_name code.view_engine)) = 1 →
      ∃ st' : ProjectState,
        ViewDropRunPython_state_forwards true code app_label st = .ok st' ∧
        st'.models.length + 1 = st.models.length ∧
        st'.models.countP (fun kv => kv.1 == (app_label,
          get_table_engine_name_hash code.table_name code.view_engine)) = 0 ∧
        ∀ kv ∈ st.models,
          kv.1 ≠ (app_label,
            get_table_engine_name_hash code.table_name code.view_engine) →
          kv ∈ st'.models) := by
  refine ⟨?_, ?_, ?_⟩
  · intro code app_label st base hbase hany
    unfold ViewRunPython_state_forwards
    rw [if_pos rfl, hbase]
    unfold add_model
    simp only [DBViewModelState_init, hash_lower, hany, Bool.false_eq_true, if_false]
  · intro code app_label st base hbase hany
    unfold ViewRunPython_state_forwards
    rw [if_pos rfl, hbase]
    unfold add_model
    simp only [DBViewModelState_init, hash_lower, hany, if_true]
  · intro code app_label st hcount
    have hany : st.models.any (fun kv => kv.1 == (app_label,
        get_table_engine_name_hash code.table_name code.view_engine)) = true := by
      rw [List.any_eq_true]
      exact List.countP_pos_iff.mp (by omega)
    refine ⟨⟨st.models.filter (fun kv => !(kv.1 == (app_label,
      get_table_engine_name_hash code.table_name code.view_engine)))⟩, ?_, ?_, ?_, ?_⟩
    · unfold ViewDropRunPython_state_forwards remove_model
      rw [if_pos rfl]
      simp only [hany, if_true]
    · show (st.models.filter _).length + 1 = st.models.length
      rw [← List.countP_eq_length_filter]
      rw [← hcount, countP_not_add]
    · show (st.models.filter _).countP _ = 0
      rw [List.countP_filter]
      simp
    · intro kv hkv hne
      exact List.mem_filter.mpr ⟨hkv, by simp [hne]⟩

/-- Concrete forward migration function used in witnesses. -/
def codeEx : MigrationFunction := ⟨.forwardView, "SELECT 1", "tbl", some "Eng"⟩

/-- Concrete one-entry project state used in witnesses. -/
def stEx : ProjectState :=
  ⟨[(("app", get_table_engine_name_hash "tbl" (some "Eng")),
    DBViewModelState_init true "app" (get_table_engine_name_hash "tbl" (some "Eng"))
      (some "Eng") "SELECT 1" .dbView "tbl")]⟩

/-- Witness for claim C3 at a concrete operation and state. -/
theorem claim_C3_state_add_remove_witness :
    (ViewRunPython_state_forwards true codeEx "app" ⟨[]⟩ =
      .ok ⟨[(("app", get_table_engine_name_hash "tbl" (some "Eng")),
        DBViewModelState_init true "app"
          (get_table_engine_name_hash "tbl" (some "Eng"))
          (some "Eng") "SELECT 1" .dbView "tbl")]⟩)
    ∧ (ViewRunPython_state_forwards true codeEx "app" stEx =
      .error .duplicateModelState)
    ∧ (∃ st' : ProjectState,
        ViewDropRunPython_state_forwards true codeEx "app" stEx = .ok st' ∧
        st'.models.length + 1 = stEx.models.length ∧
        st'.models.countP (fun kv => kv.1 == ("app",
          get_table_engine_name_hash codeEx.table_name codeEx.view_engine)) = 0 ∧
        ∀ kv ∈ stEx.models,
          kv.1 ≠ ("app",
            get_table_engine_name_hash codeEx.table_name codeEx.view_engine) →
          kv ∈ st'.models) :=
  ⟨claim_C3_state_add_remove.1 codeEx "app" ⟨[]⟩ .dbView rfl (by decide),
   claim_C3_state_add_remove.2.1 codeEx "app" stEx .dbView rfl (by decide),
   claim_C3_state_add_remove.2.2 codeEx "app" stEx (by decide)⟩

/-- Claim C10: when the process-wide view-migration context flag is false,
both `state_forwards` methods leave the state completely unchanged and
`DBViewModelState.__init__` does not attach the view-specific attributes. -/
theorem claim_C10_context_flag_frame :
    (∀ (code : MigrationFunction) (app_label : String) (st : ProjectState),
      ViewRunPython_state_forwards false code app_label st = .ok st)
    ∧ (∀ (code : MigrationFunction) (app_label : String) (st : ProjectState),
      ViewDropRunPython_state_forwards false code app_label st = .ok st)
    ∧ (∀ (app_label nm : String) (ve : Option String) (vd : String)
      (base : BaseClass) (tbl : String),
      (DBViewModelState_init false app_label nm ve vd base tbl).view_attrs = none) :=
  ⟨fun _ _ _ => rfl, fun _ _ _ => rfl, fun _ _ _ _ _ _ => rfl⟩

/-! ## Embedding of `get_view_definition_from_model` -/

/-- Values of an engine-to-definition mapping: a plain string, or a callable
object (which `get_cleaned_view_definition_value` does not invoke). -/
inductive DictVal where
  | strVal (s : String)
  | callableVal (ret : String)
deriving DecidableEq

/-- Raw view definition after the outer callable (if any) was invoked:
a plain string or an engine mapping. -/
inductive RawViewDef where
  | strDef (s : String)
  | mappingDef (m : List (String × DictVal))
deriving DecidableEq

/-- The declared `view_definition` attribute: either a raw value or a
zero-argument callable returning one. -/
inductive ViewDefDecl where
  | plain (r : RawViewDef)
  | callableDecl (r : RawViewDef)
deriving DecidableEq

/-- Embeds `get_cleaned_view_definition_value`: asserts that the value is a
string and strips it; a non-string value (such as a callable) raises
`AssertionError`. -/
def get_cleaned_view_definition_value : DictVal → Except PyErr String
  | .strVal s => .ok (pyStrip s)
  | .callableVal _ => .error .assertionError

/-- Embeds `get_view_definition_from_model`: call the declaration if it is
callable, then either clean every mapping value or assign the cleaned plain
definition to the default database engine. -/
def get_view_definition_from_model (s : Settings) (decl : ViewDefDecl) :
    Except PyErr (List (String × String)) :=
  let raw :=
    match decl with
    | .plain r => r
    | .callableDecl r => r
  match raw with
  | .mappingDef m =>
      m.mapM (fun ev => do
        let c ← get_cleaned_view_definition_value ev.2
        pure (ev.1, c))
  | .strDef st => do
      let c ← get_cleaned_view_definition_value (.strVal st)
      pure [(s.default_engine, c)]

/-- Counterexample to claim C4: a mapping value that is a callable returning
a string is not invoked and resolved; `get_cleaned_view_definition_value`
raises `AssertionError` on it. -/
theorem claim_C4_counterexample :
    get_view_definition_from_model ⟨"django.db.backends.postgresql"⟩
        (.plain (.mappingDef [("e1", .callableVal "SELECT 1")])) =
      .error .assertionError
    ∧ get_view_definition_from_model ⟨"django.db.backends.postgresql"⟩
        (.plain (.mappingDef [("e1", .callableVal "SELECT 1")])) ≠
      .ok [("e1", "SELECT 1")] := by
  refine ⟨rfl, fun h => ?_⟩
  rw [show get_view_definition_from_model ⟨"django.db.backends.postgresql"⟩
        (.plain (.mappingDef [("e1", .callableVal "SELECT 1")])) =
      Except.error PyErr.assertionError from rfl] at h
  exact Except.noConfusion h

/-- Claim C4 (amended): the declared view definition is resolved to a mapping
from engine to plain string before comparison: a zero-argument callable
declaration is invoked once and resolved like its return value; a mapping
whose values are plain strings has each value stripped; and a non-mapping
definition is assigned, stripped, to the single default-database engine.
Mapping values that are not plain strings fail the assertion instead of
being invoked. -/
theorem mapM_cleaned_strVals (m : List (String × String)) :
    (m.map (fun ev => (ev.1, DictVal.strVal ev.2))).mapM
        (fun ev : String × DictVal => do
          let c ← get_cleaned_view_definition_value ev.2
          pure (ev.1, c)) =
      Except.ok (m.map (fun ev => (ev.1, pyStrip ev.2))) := by
  induction m with
  | nil => rfl
  | cons ev m ih =>
    simp only [List.map_cons, List.mapM_cons, ih]
    rfl

theorem claim_C4_resolution :
    (∀ (s : Settings) (r : RawViewDef),
      get_view_definition_from_model s (.callableDecl r) =
        get_view_definition_from_model s (.plain r))
    ∧ (∀ (s : Settings) (m : List (String × String)),
      get_view_definition_from_model s
          (.plain (.mappingDef (m.map (fun ev => (ev.1, DictVal.strVal ev.2))))) =
        .ok (m.map (fun ev => (ev.1, pyStrip ev.2))))
    ∧ (∀ (s : Settings) (st : String),
      get_view_definition_from_model s (.plain (.strDef st)) =
        .ok [(s.default_engine, pyStrip st)]) :=
  ⟨fun _ _ => rfl, fun _ m => mapM_cleaned_strVals m, fun _ _ => rfl⟩

/-! ## Embedding of the field-comment operations of `operations.py` -/

/-- Data of a Django model field relevant here: its `db_comment`. -/
structure FieldE where
  db_comment : Option String
deriving DecidableEq

/-- Field operations in scope for `AddFieldComment.reduce`. -/
inductive FieldOp where
  | addFieldComment (model_name name : String) (field : FieldE)
  | alterFieldComment (model_name name : String) (field : FieldE)
      (preserve_default : Bool)
  | removeFieldComment (model_name name : String)
  | nonFieldOp
deriving DecidableEq

/-- Django `isinstance(operation, operations.fields.FieldOperation)`. -/
def isFieldOperation : FieldOp → Bool
  | .nonFieldOp => false
  | _ => true

/-- Django `FieldOperation.is_same_field_operation`: same lowered model name
and same lowered field name. -/
def is_same_field_operation (self_model self_name : String) : FieldOp → Bool
  | .addFieldComment mn n _ =>
      lowerString self_model == lowerString mn && lowerString self_name == lowerString n
  | .alterFieldComment mn n _ _ =>
      lowerString self_model == lowerString mn && lowerString self_name == lowerString n
  | .removeFieldComment mn n =>
      lowerString self_model == lowerString mn && lowerString self_name == lowerString n
  | .nonFieldOp => false

/-- Result of a `reduce` call: a collapsed operation list, or delegation to
the superclass implementation (Django's `AddField.reduce`). -/
inductive ReduceResult where
  | reduced (ops : List FieldOp)
  | deferToSuper
deriving DecidableEq

/-- Embeds `AddFieldComment.reduce` for a `self` with the given model name,
field name and field. -/
def AddFieldComment_reduce (model_name name : String) (field : FieldE)
    (operation : FieldOp) : ReduceResult :=
  if isFieldOperation operation && is_same_field_operation model_name name operation then
    match operation with
    | .alterFieldComment _ n2 f2 _ => .reduced [.addFieldComment model_name n2 f2]
    | _ => .deferToSuper
  else .deferToSuper

/-- Claim C8: an `AddFieldComment` immediately followed by an
`AlterFieldComment` on the same field of the same model reduces to a single
`AddFieldComment` carrying the later operation's field (and hence the later
comment value). -/
theorem claim_C8_add_alter_collapse (mn n : String) (f : FieldE)
    (mn2 n2 : String) (f2 : FieldE) (pd : Bool)
    (hm : lowerString mn = lowerString mn2) (hn : lowerString n = lowerString n2) :
    AddFieldComment_reduce mn n f (.alterFieldComment mn2 n2 f2 pd) =
      .reduced [.addFieldComment mn n2 f2] := by
  unfold AddFieldComment_reduce
  have hcond : (isFieldOperation (.alterFieldComment mn2 n2 f2 pd) &&
      is_same_field_operation mn n (.alterFieldComment mn2 n2 f2 pd)) = true := by
    simp [isFieldOperation, is_same_field_operation, hm, hn]
  rw [if_pos hcond]

/-- Witness for claim C8 at a concrete operation pair. -/
theorem claim_C8_add_alter_collapse_witness :
    AddFieldComment_reduce "Book" "title" ⟨some "old"⟩
        (.alterFieldComment "book" "Title" ⟨some "new"⟩ true) =
      .reduced [.addFieldComment "Book" "Title" ⟨some "new"⟩] :=
  claim_C8_add_alter_collapse "Book" "title" ⟨some "old"⟩ "book" "Title"
    ⟨some "new"⟩ true (by decide) (by decide)

/-! ## Embedding of `get_previous_view_definition_state` (the graph walker) -/

/-- Django migration-graph node keys: `(app_label, migration_name)`. -/
abbrev NodeId := String × String

/-- A migration node: only its operation list matters to the walker. -/
structure Migration where
  operations : List Operation

/-- The host migration graph, consumed through `leaf_nodes`,
`nodes[...]{.operations}` and `node_map[...].parents`. -/
structure MigrationGraph where
  nodes : NodeId → Migration
  parents : NodeId → List NodeId
  leaf_nodes : String → List NodeId

/-- Django `isinstance(op, ViewRunPython)` (note `ViewDropRunPython`
subclasses `RunPython`, not `ViewRunPython`). -/
def isViewRunPython : Operation → Bool
  | .viewRunPython _ _ _ => true
  | _ => false

/-- The `code` attribute of an operation, when it has one. -/
def operationCode : Operation → Option MigrationFunction
  | .viewRunPython code _ _ => some code
  | .viewDropRunPython code _ _ => some code
  | _ => none

/-- Embeds the engine part of `_get_view_identifiers_from_operation`: an
absent or falsy `view_engine` resolves to the default database engine. -/
def operation_view_engine (s : Settings) (code : MigrationFunction) : String :=
  match code.view_engine with
  | some e => if e == "" then s.default_engine else e
  | none => s.default_engine

/-- True when the operation's identifiers match the searched table and
engine. -/
def matchesView (s : Settings) (for_table engine : String)
    (code : MigrationFunction) : Bool :=
  code.table_name == for_table && operation_view_engine s code == engine

/-- One node visit of the walker: scan the operation list in order; a direct
matching `ViewRunPython` returns its stripped recorded definition; a
`SeparateDatabaseAndState` wrapper is asserted to hold at most one
`ViewRunPython` among its database operations, which is returned when it
matches; otherwise continue. -/
def nodeScan (s : Settings) (for_table engine : String) :
    List Operation → Except PyErr (Option String)
  | [] => .ok none
  | op :: rest =>
    match op with
    | .viewRunPython code _ _ =>
      if matchesView s for_table engine code then .ok (some (pyStrip code.view_definition))
      else nodeScan s for_table engine rest
    | .separateDatabaseAndState dbops =>
      let view_operations := dbops.filter isViewRunPython
      if view_operations.length > 1 then .error .assertionError
      else
        match view_operations.head? with
        | some vop =>
          match operationCode vop with
          | some code =>
            if matchesView s for_table engine code then
              .ok (some (pyStrip code.view_definition))
            else nodeScan s for_table engine rest
          | none => nodeScan s for_table engine rest
        | none => nodeScan s for_table engine rest
    | _ => nodeScan s for_table engine rest

/-- Lexicographic order on node identifiers, as Python compares tuples. -/
def nodeLe (a b : NodeId) : Bool :=
  decide (a.1 < b.1) || (a.1 == b.1 && decide (a.2 ≤ b.2))

/-- Insertion into a sorted list (Python `sorted` is a total-order sort;
insertion sort is used here so the kernel can evaluate it). -/
def insertSorted (a : NodeId) : List NodeId → List NodeId
  | [] => [a]
  | b :: l => if nodeLe a b then a :: b :: l else b :: insertSorted a l

/-- Embeds `sorted(...)` over candidate parent identifiers. -/
def sortNodes : List NodeId → List NodeId
  | [] => []
  | a :: l => insertSorted a (sortNodes l)

/-- The next node of the walk: the last element of the sorted
same-application parents, if any. -/
def nextParent (g : MigrationGraph) (app_label : String) (n : NodeId) :
    Option NodeId :=
  (sortNodes ((g.parents n).filter (fun p => p.1 == app_label))).getLast?

/-- The backward walk of `get_previous_view_definition_state`, with explicit
fuel standing for the acyclicity of the migration graph. -/
def walkFrom (s : Settings) (g : MigrationGraph)
    (app_label for_table engine : String) : Nat → Option NodeId → Except PyErr String
  | _, none => .ok ""
  | 0, some _ => .error .outOfFuel
  | fuel + 1, some n =>
    match nodeScan s for_table engine (g.nodes n).operations with
    | .error e => .error e
    | .ok (some d) => .ok d
    | .ok none =>
      walkFrom s g app_label for_table engine fuel (nextParent g app_label n)

/-- Embeds `get_previous_view_definition_state`: start at the application's
first leaf node and walk backward. -/
def get_previous_view_definition_state (s : Settings) (g : MigrationGraph)
    (app_label for_table engine : String) (fuel : Nat) : Except PyErr String :=
  walkFrom s g app_label for_table engine fuel ((g.leaf_nodes app_label).head?)

theorem nodeLe_refl (a : NodeId) : nodeLe a a = true := by
  simp [nodeLe]

theorem nodeLe_total (a b : NodeId) : nodeLe a b = true ∨ nodeLe b a = true := by
  simp only [nodeLe, Bool.or_eq_true, Bool.and_eq_true, decide_eq_true_eq, beq_iff_eq]
  rcases lt_trichotomy a.1 b.1 with h | h | h
  · exact Or.inl (Or.inl h)
  · rcases le_total a.2 b.2 with h2 | h2
    · exact Or.inl (Or.inr ⟨h, h2⟩)
    · exact Or.inr (Or.inr ⟨h.symm, h2⟩)
  · exact Or.inr (Or.inl h)

theorem nodeLe_trans {a b c : NodeId} (h1 : nodeLe a b = true)
    (h2 : nodeLe b c = true) : nodeLe a c = true := by
  simp only [nodeLe, Bool.or_eq_true, Bool.and_eq_true, decide_eq_true_eq,
    beq_iff_eq] at h1 h2 ⊢
  rcases h1 with h1 | ⟨h1, h1b⟩
  · rcases h2 with h2 | ⟨h2, _⟩
    · exact Or.inl (lt_trans h1 h2)
    · exact Or.inl (h2 ▸ h1)
  · rcases h2 with h2 | ⟨h2, h2b⟩
    · exact Or.inl (h1 ▸ h2)
    · exact Or.inr ⟨h1.trans h2, le_trans h1b h2b⟩

theorem nodeLe_of_not {a b : NodeId} (h : ¬ nodeLe a b = true) : nodeLe b a = true := by
  rcases nodeLe_total a b with h1 | h1
  · exact absurd h1 h
  · exact h1

theorem mem_insertSorted {x a : NodeId} {l : List NodeId} :
    x ∈ insertSorted a l ↔ x = a ∨ x ∈ l := by
  induction l with
  | nil => simp [insertSorted]
  | cons b l ih =>
    simp only [insertSorted]
    split
    · simp
    · simp only [List.mem_cons, ih]
      tauto

/-- Sortedness with respect to `nodeLe`. -/
def SortedNodes (l : List NodeId) : Prop :=
  l.Pairwise (fun a b => nodeLe a b = true)

theorem sorted_insertSorted {a : NodeId} {l : List NodeId} (h : SortedNodes l) :
    SortedNodes (insertSorted a l) := by
  induction l with
  | nil => simp [insertSorted, SortedNodes]
  | cons b l ih =>
    simp only [insertSorted]
    split
    · next hab =>
      refine List.Pairwise.cons ?_ h
      intro y hy
      rcases List.mem_cons.mp hy with rfl | hy
      · exact hab
      · exact nodeLe_trans hab ((List.pairwise_cons.mp h).1 y hy)
    · next hab =>
      rw [SortedNodes, List.pairwise_cons] at h
      refine List.Pairwise.cons ?_ (ih h.2)
      intro y hy
      rcases mem_insertSorted.mp hy with rfl | hy
      · exact nodeLe_of_not hab
      · exact h.1 y hy

theorem sorted_sortNodes (l : List NodeId) : SortedNodes (sortNodes l) := by
  induction l with
  | nil => exact List.Pairwise.nil
  | cons a l ih => exact sorted_insertSorted ih

theorem mem_sortNodes {x : NodeId} {l : List NodeId} :
    x ∈ sortNodes l ↔ x ∈ l := by
  induction l with
  | nil => simp [sortNodes]
  | cons a l ih =>
    simp only [sortNodes, mem_insertSorted, ih, List.mem_cons]

theorem sorted_getLast_max :
    ∀ {l : List NodeId}, SortedNodes l → ∀ x ∈ l,
      ∃ m, l.getLast? = some m ∧ nodeLe x m = true := by
  intro l
  induction l with
  | nil => intro _ x hx; simp at hx
  | cons a l ih =>
    intro hs x hx
    match l with
    | [] =>
      rcases List.mem_cons.mp hx with rfl | hx
      · exact ⟨x, rfl, nodeLe_refl x⟩
      · simp at hx
    | b :: l2 =>
      rw [SortedNodes, List.pairwise_cons] at hs
      rcases List.mem_cons.mp hx with rfl | hx
      · obtain ⟨m, hm, _⟩ := ih hs.2 b (List.mem_cons_self b l2)
        refine ⟨m, by rw [List.getLast?_cons_cons]; exact hm, ?_⟩
        exact hs.1 m (List.mem_of_mem_getLast? hm)
      · obtain ⟨m, hm, hle⟩ := ih hs.2 x hx
        exact ⟨m, by rw [List.getLast?_cons_cons]; exact hm, hle⟩

/-- The chosen next node is the lexically greatest same-application parent. -/
theorem nextParent_is_max (g : MigrationGraph) (app_label : String) (n : NodeId)
    {p : NodeId} (hp : p ∈ (g.parents n).filter (fun q => q.1 == app_label)) :
    ∃ m, nextParent g app_label n = some m ∧ nodeLe p m = true ∧
      m ∈ (g.parents n).filter (fun q => q.1 == app_label) := by
  have hmem : p ∈ sortNodes ((g.parents n).filter (fun q => q.1 == app_label)) :=
    mem_sortNodes.mpr hp
  obtain ⟨m, hm, hle⟩ := sorted_getLast_max (sorted_sortNodes _) p hmem
  exact ⟨m, hm, hle, mem_sortNodes.mp (List.mem_of_mem_getLast? hm)⟩

/-! ## Linear single-application histories -/

/-- Name of the i-th migration of a linear chain; names grow with the index
so that each node has exactly one (earlier) parent. -/
def chainName (i : Nat) : String :=
  String.mk (List.replicate i 'x')

theorem chainName_length (i : Nat) : (chainName i).length = i := by
  simp [chainName, String.length]

/-- A linear single-application history of `n` migrations: migration `i`
holds the operations `opsF i`, the leaf is migration `n - 1`, and each
migration's only parent is its predecessor. -/
def linearGraph (app : String) (opsF : Nat → List Operation) (n : Nat) :
    MigrationGraph where
  nodes := fun node => if node.1 == app then ⟨opsF node.2.length⟩ else ⟨[]⟩
  parents := fun node =>
    if node.1 == app && node.2.length != 0 then
      [(app, chainName (node.2.length - 1))]
    else []
  leaf_nodes := fun a =>
    if a == app && n != 0 then [(app, chainName (n - 1))] else []

theorem linear_nodes (app : String) (opsF : Nat → List Operation) (n i : Nat) :
    (linearGraph app opsF n).nodes (app, chainName i) = ⟨opsF i⟩ := by
  simp [linearGraph, chainName_length]

theorem linear_nextParent (app : String) (opsF : Nat → List Operation) (n i : Nat) :
    nextParent (linearGraph app opsF n) app (app, chainName (i + 1)) =
      some (app, chainName i) := by
  unfold nextParent
  rw [show (linearGraph app opsF n).parents (app, chainName (i + 1)) =
      [(app, chainName i)] by simp [linearGraph, chainName_length]]
  simp [sortNodes, insertSorted]

theorem linear_nextParent_zero (app : String) (opsF : Nat → List Operation) (n : Nat) :
    nextParent (linearGraph app opsF n) app (app, chainName 0) = none := by
  unfold nextParent
  rw [show (linearGraph app opsF n).parents (app, chainName 0) = [] by
    simp [linearGraph, chainName_length]]
  rfl

theorem linear_leaf (app : String) (opsF : Nat → List Operation) {n : Nat}
    (hn : n ≠ 0) :
    (linearGraph app opsF n).leaf_nodes app = [(app, chainName (n - 1))] := by
  simp [linearGraph, hn]

theorem walk_linear_match (s : Settings) (app : String)
    (opsF : Nat → List Operation) (n : Nat) (tbl eng : String) (k : Nat)
    (d : String) (hk : nodeScan s tbl eng (opsF k) = .ok (some d))
    (hoth : ∀ i, k < i → i < n → nodeScan s tbl eng (opsF i) = .ok none) :
    ∀ (j fuel : Nat), k + j < n → j < fuel →
      walkFrom s (linearGraph app opsF n) app tbl eng fuel
        (some (app, chainName (k + j))) = .ok d := by
  intro j
  induction j with
  | zero =>
    intro fuel hn hf
    match fuel, hf with
    | f + 1, _ =>
      simp only [Nat.add_zero, walkFrom, linear_nodes, hk]
  | succ j ih =>
    intro fuel hn hf
    match fuel, hf with
    | f + 1, hf =>
      have hscan : nodeScan s tbl eng (opsF (k + (j + 1))) = .ok none :=
        hoth _ (by omega) (by omega)
      simp only [walkFrom, linear_nodes, hscan]
      rw [show (k + (j + 1)) = (k + j) + 1 from rfl, linear_nextParent]
      exact ih f (by omega) (by omega)

theorem walk_linear_none (s : Settings) (app : String)
    (opsF : Nat → List Operation) (n : Nat) (tbl eng : String)
    (hall : ∀ i, i < n → nodeScan s tbl eng (opsF i) = .ok none) :
    ∀ (j fuel : Nat), j < n → j < fuel →
      walkFrom s (linearGraph app opsF n) app tbl eng fuel
        (some (app, chainName j)) = .ok "" := by
  intro j
  induction j with
  | zero =>
    intro fuel hn hf
    match fuel, hf with
    | f + 1, _ =>
      have hscan := hall 0 hn
      simp only [walkFrom, linear_nodes, hscan]
      rw [linear_nextParent_zero]
      match f with
      | 0 => rfl
      | _ + 1 => rfl
  | succ j ih =>
    intro fuel hn hf
    match fuel, hf with
    | f + 1, hf =>
      have hscan := hall (j + 1) hn
      simp only [walkFrom, linear_nodes, hscan]
      rw [linear_nextParent]
      exact ih f (by omega) (by omega)

/-- Claim C1: the walker moves, at each step, to the lexically greatest
same-application parent (the last of the sorted candidates); over a linear
single-application history of `n` migrations where the only matching view
operation sits in migration `k`, it returns migration `k`'s recorded
definition, stripped, regardless of `n`; and it returns the empty string
when no migration of the history matches. -/
theorem claim_C1_graph_walk :
    (∀ (g : MigrationGraph) (app_label : String) (node p : NodeId),
      p ∈ (g.parents node).filter (fun q => q.1 == app_label) →
      ∃ m, nextParent g app_label node = some m ∧ nodeLe p m = true ∧
        m ∈ (g.parents node).filter (fun q => q.1 == app_label))
    ∧ (∀ (s : Settings) (code reverse_code : MigrationFunction) (at_ : Bool)
        (tbl eng : String),
      matchesView s tbl eng code = true →
      nodeScan s tbl eng [.viewRunPython code reverse_code at_] =
        .ok (some (pyStrip code.view_definition)))
    ∧ (∀ (s : Settings) (app tbl eng : String) (opsF : Nat → List Operation)
        (n k : Nat) (d : String) (fuel : Nat),
      k < n → n ≤ fuel →
      nodeScan s tbl eng (opsF k) = .ok (some d) →
      (∀ i, k < i → i < n → nodeScan s tbl eng (opsF i) = .ok none) →
      get_previous_view_definition_state s (linearGraph app opsF n) app tbl eng
        fuel = .ok d)
    ∧ (∀ (s : Settings) (app tbl eng : String) (opsF : Nat → List Operation)
        (n fuel : Nat),
      n < fuel →
      (∀ i, i < n → nodeScan s tbl eng (opsF i) = .ok none) →
      get_previous_view_definition_state s (linearGraph app opsF n) app tbl eng
        fuel = .ok "") := by
  refine ⟨?_, ?_, ?_, ?_⟩
  · intro g app_label node p hp
    exact nextParent_is_max g app_label node hp
  · intro s code reverse_code at_ tbl eng hmatch
    simp only [nodeScan, hmatch, if_true]
  · intro s app tbl eng opsF n k d fuel hk hfuel hscan hoth
    unfold get_previous_view_definition_state
    rw [linear_leaf app opsF (by omega)]
    show walkFrom s (linearGraph app opsF n) app tbl eng fuel
      (some (app, chainName (n - 1))) = .ok d
    rw [show n - 1 = k + (n - 1 - k) by omega]
    exact walk_linear_match s app opsF n tbl eng k d hscan hoth (n - 1 - k) fuel
      (by omega) (by omega)
  · intro s app tbl eng opsF n fuel hfuel hall
    unfold get_previous_view_definition_state
    match n with
    | 0 =>
      rw [show (linearGraph app opsF 0).leaf_nodes app = [] by simp [linearGraph]]
      match fuel with
      | 0 => rfl
      | _ + 1 => rfl
    | n + 1 =>
      rw [linear_leaf app opsF (by omega)]
      exact walk_linear_none s app opsF (n + 1) tbl eng hall n fuel (by omega)
        (by omega)

/-- Concrete settings used in witnesses. -/
def sEx : Settings := ⟨"django.db.backends.postgresql"⟩

/-- Concrete matching view operation used in witnesses. -/
def vopEx : Operation :=
  .viewRunPython ⟨.forwardView, "  SELECT 1  ", "tbl", some "Eng"⟩
    ⟨.backwardView, "", "tbl", some "Eng"⟩ false

/-- Concrete linear history: the matching operation only in migration 1. -/
def opsEx : Nat → List Operation := fun i => if i = 1 then [vopEx] else []

/-- Witness for claim C1 on a concrete three-migration linear history. -/
theorem claim_C1_graph_walk_witness :
    (∃ m, nextParent (linearGraph "app" opsEx 3) "app" ("app", chainName 2) =
        some m ∧ nodeLe ("app", chainName 1) m = true ∧
        m ∈ ((linearGraph "app" opsEx 3).parents ("app", chainName 2)).filter
          (fun q => q.1 == "app"))
    ∧ nodeScan sEx "tbl" "Eng"
        [.viewRunPython ⟨.forwardView, "  SELECT 1  ", "tbl", some "Eng"⟩
          ⟨.backwardView, "", "tbl", some "Eng"⟩ false] =
      .ok (some (pyStrip "  SELECT 1  "))
    ∧ get_previous_view_definition_state sEx (linearGraph "app" opsEx 3) "app"
        "tbl" "Eng" 3 = .ok (pyStrip "  SELECT 1  ")
    ∧ get_previous_view_definition_state sEx
        (linearGraph "app" (fun _ => []) 2) "app" "tbl" "Eng" 3 = .ok "" :=
  ⟨claim_C1_graph_walk.1 (linearGraph "app" opsEx 3) "app" ("app", chainName 2)
      ("app", chainName 1) (by decide),
   claim_C1_graph_walk.2.1 sEx ⟨.forwardView, "  SELECT 1  ", "tbl", some "Eng"⟩
      ⟨.backwardView, "", "tbl", some "Eng"⟩ false "tbl" "Eng" (by decide),
   claim_C1_graph_walk.2.2.1 sEx "app" "tbl" "Eng" opsEx 3 1
      (pyStrip "  SELECT 1  ") 3 (by omega) (by omega) rfl
      (fun i h1 h2 => by interval_cases i; rfl),
   claim_C1_graph_walk.2.2.2 sEx "app" "tbl" "Eng" (fun _ => []) 2 3 (by omega)
      (fun i hi => by interval_cases i <;> rfl)⟩

theorem nodeScan_append_none {s : Settings} {tbl eng : String} :
    ∀ (pre rest : List Operation),
      nodeScan s tbl eng pre = .ok none →
      nodeScan s tbl eng (pre ++ rest) = nodeScan s tbl eng rest := by
  intro pre
  induction pre with
  | nil => intro rest _; rfl
  | cons op pre ih =>
    intro rest hpre
    match op with
    | .viewRunPython code rc a =>
      simp only [nodeScan] at hpre ⊢
      split at hpre
      · exact absurd hpre (by simp)
      · next h =>
        rw [if_neg h]
        exact ih rest hpre
    | .viewDropRunPython code rc a => exact ih rest hpre
    | .otherOperation => exact ih rest hpre
    | .separateDatabaseAndState dbops =>
      simp only [nodeScan] at hpre ⊢
      by_cases hlen : (dbops.filter isViewRunPython).length > 1
      · rw [if_pos hlen] at hpre
        exact absurd hpre (by simp)
      · rw [if_neg hlen] at hpre ⊢
        cases hhead : (dbops.filter isViewRunPython).head? with
        | none =>
          simp only [hhead] at hpre ⊢
          exact ih rest hpre
        | some vop =>
          simp only [hhead] at hpre ⊢
          cases hcode : operationCode vop with
          | none =>
            simp only [hcode] at hpre ⊢
            exact ih rest hpre
          | some code =>
            simp only [hcode] at hpre ⊢
            by_cases hm : matchesView s tbl eng code = true
            · rw [if_pos hm] at hpre
              exact absurd hpre (by simp)
            · rw [if_neg hm] at hpre ⊢
              exact ih rest hpre

/-- Claim C7 (amended): whenever the walk visits a node whose operations
hold, after a prefix with no match, a `SeparateDatabaseAndState` wrapper
containing more than one `ViewRunPython` operation (in particular two for
the same `(table, engine)` key), the walker fails fast with the assertion
instead of returning either recorded definition; the same holds for
`get_previous_view_definition_state` when that node is the starting leaf. -/
theorem claim_C7_ambiguous_wrapper_fail_fast :
    (∀ (s : Settings) (g : MigrationGraph) (app tbl eng : String) (fuel : Nat)
      (node : NodeId) (pre dbops post : List Operation),
      (g.nodes node).operations =
        pre ++ Operation.separateDatabaseAndState dbops :: post →
      nodeScan s tbl eng pre = .ok none →
      1 < (dbops.filter isViewRunPython).length →
      walkFrom s g app tbl eng (fuel + 1) (some node) = .error .assertionError)
    ∧ (∀ (s : Settings) (g : MigrationGraph) (app tbl eng : String) (fuel : Nat)
      (node : NodeId) (pre dbops post : List Operation),
      (g.leaf_nodes app).head? = some node →
      (g.nodes node).operations =
        pre ++ Operation.separateDatabaseAndState dbops :: post →
      nodeScan s tbl eng pre = .ok none →
      1 < (dbops.filter isViewRunPython).length →
      get_previous_view_definition_state s g app tbl eng (fuel + 1) =
        .error .assertionError) := by
  have hmain : ∀ (s : Settings) (g : MigrationGraph) (app tbl eng : String)
      (fuel : Nat) (node : NodeId) (pre dbops post : List Operation),
      (g.nodes node).operations =
        pre ++ Operation.separateDatabaseAndState dbops :: post →
      nodeScan s tbl eng pre = .ok none →
      1 < (dbops.filter isViewRunPython).length →
      walkFrom s g app tbl eng (fuel + 1) (some node) = .error .assertionError := by
    intro s g app tbl eng fuel node pre dbops post hops hpre hlen
    have hscan : nodeScan s tbl eng (g.nodes node).operations =
        .error .assertionError := by
      rw [hops, nodeScan_append_none pre _ hpre]
      simp only [nodeScan]
      rw [if_pos hlen]
    simp only [walkFrom, hscan]
  refine ⟨hmain, ?_⟩
  intro s g app tbl eng fuel node pre dbops post hleaf hops hpre hlen
  unfold get_previous_view_definition_state
  rw [hleaf]
  exact hmain s g app tbl eng fuel node pre dbops post hops hpre hlen

/-- Two view operations for the same `(table, engine)` key, with distinct
recorded definitions. -/
def vopA : Operation :=
  .viewRunPython ⟨.forwardView, "SELECT 2", "tbl", some "Eng"⟩
    ⟨.backwardView, "", "tbl", some "Eng"⟩ false

/-- Second ambiguous view operation for the same key. -/
def vopB : Operation :=
  .viewRunPython ⟨.forwardView, "SELECT 3", "tbl", some "Eng"⟩
    ⟨.backwardView, "", "tbl", some "Eng"⟩ false

/-- Two-migration history whose initial migration wraps two same-key view
operations in one `SeparateDatabaseAndState`, while the leaf migration holds
a direct match. -/
def ambigOps : Nat → List Operation := fun i =>
  if i = 0 then [.separateDatabaseAndState [vopA, vopB]] else [vopEx]

/-- Counterexample to claim C7 as stated: this history contains a composite
wrapper node with two view operations for the same `(table, engine)` key,
yet `get_previous_view_definition_state` does not fail — the leaf migration
matches first and its definition is returned, so the ambiguous node is never
inspected. -/
theorem claim_C7_counterexample :
    ((linearGraph "app" ambigOps 2).nodes ("app", chainName 0)).operations =
      [.separateDatabaseAndState [vopA, vopB]]
    ∧ isViewRunPython vopA = true
    ∧ isViewRunPython vopB = true
    ∧ matchesView sEx "tbl" "Eng" ⟨.forwardView, "SELECT 2", "tbl", some "Eng"⟩ = true
    ∧ matchesView sEx "tbl" "Eng" ⟨.forwardView, "SELECT 3", "tbl", some "Eng"⟩ = true
    ∧ get_previous_view_definition_state sEx (linearGraph "app" ambigOps 2)
        "app" "tbl" "Eng" 5 = .ok "SELECT 1"
    ∧ get_previous_view_definition_state sEx (linearGraph "app" ambigOps 2)
        "app" "tbl" "Eng" 5 ≠ .error .assertionError := by
  refine ⟨rfl, rfl, rfl, rfl, rfl, rfl, fun h => ?_⟩
  rw [show get_previous_view_definition_state sEx (linearGraph "app" ambigOps 2)
      "app" "tbl" "Eng" 5 = .ok "SELECT 1" from rfl] at h
  exact Except.noConfusion h

/-- Witness for the amended claim C7: a single-migration history whose leaf
is the ambiguous composite node makes the walker fail with the assertion. -/
theorem claim_C7_ambiguous_wrapper_fail_fast_witness :
    get_previous_view_definition_state sEx
      (linearGraph "app" (fun _ => [.separateDatabaseAndState [vopA, vopB]]) 1)
      "app" "tbl" "Eng" 5 = .error .assertionError :=
  claim_C7_ambiguous_wrapper_fail_fast.2 sEx
    (linearGraph "app" (fun _ => [.separateDatabaseAndState [vopA, vopB]]) 1)
    "app" "tbl" "Eng" 4 ("app", chainName 0) [] [vopA, vopB] [] rfl rfl rfl
    (by decide)

/-! ## Embedding of `generate_views_operations` and `delete_old_views` -/

/-- Embeds `get_forward_migration_class` (model kinds are closed to the two
view base classes on these code paths). -/
def get_forward_migration_class : BaseClass → FuncKind
  | .dbMaterializedView => .forwardMat
  | .dbView => .forwardView

/-- Embeds `get_backward_migration_class`. -/
def get_backward_migration_class : BaseClass → FuncKind
  | .dbMaterializedView => .backwardMat
  | .dbView => .backwardView

/-- Embeds `get_drop_migration_class`. -/
def get_drop_migration_class : BaseClass → FuncKind
  | .dbMaterializedView => .dropMatFn
  | .dbView => .dropViewFn

/-- A view-backed model as `generate_views_operations` consumes it: its
database table, declared definition and view base class. -/
structure ViewModel where
  db_table : String
  view_definition : ViewDefDecl
  base : BaseClass

/-- Entries of a model state's `bases` tuple: dotted string references
produce dependencies, class references do not. -/
inductive BaseRef where
  | strRef (s : String)
  | classRef

/-- Dependency tuple `(app_label, name, None, True)` derived from one base
reference, from the `split(".", 1)` branch of `generate_views_operations`. -/
def dependency_for : BaseRef → Option (String × String × Option String × Bool)
  | .strRef s =>
    if s.contains '.' then
      match s.splitOn "." with
      | a :: rest => some (a, String.intercalate "." rest, none, true)
      | [] => none
    else none
  | .classRef => none

/-- An operation queued by `add_operation`: application label, the operation
object and its dependency tuples. -/
structure AddedOperation where
  app_label : String
  operation : Operation
  dependencies : List (String × String × Option String × Bool)

/-- Embeds `generate_views_operations`: for every registered view model and
every engine of its resolved definition, recover the previous definition via
the graph walker and, when the two are not equivalent, queue a non-atomic
forward/backward `ViewRunPython` pair whose texts are stripped of surrounding
semicolons, with dependencies on dotted base references. -/
def generate_views_operations (s : Settings) (g : MigrationGraph) (fuel : Nat)
    (view_models : List ((String × String) × ViewModel))
    (bases_of : (String × String) → List BaseRef) :
    Except PyErr (List AddedOperation) :=
  view_models.foldlM (fun acc kv => do
    let new_view_definition ← get_view_definition_from_model s kv.2.view_definition
    new_view_definition.foldlM (fun acc2 ev => do
      let current_view_definition ←
        get_previous_view_definition_state s g kv.1.1 kv.2.db_table ev.1 fuel
      if is_same_views current_view_definition ev.2 then
        pure acc2
      else
        pure (acc2 ++ [AddedOperation.mk kv.1.1
          (.viewRunPython
            ⟨get_forward_migration_class kv.2.base, stripSemicolons ev.2,
              kv.2.db_table, some ev.1⟩
            ⟨get_backward_migration_class kv.2.base,
              stripSemicolons current_view_definition, kv.2.db_table, some ev.1⟩
            false)
          ((bases_of kv.1).filterMap dependency_for)])) acc) []

/-- Embeds `get_previous_view_models_state`: the `DBViewModelState` entries
of the previous project state. -/
def get_previous_view_models_state
    (from_models : List ((String × String) × ModelStateE)) :
    List ((String × String) × ModelStateE) :=
  from_models.filter (fun kv => kv.2.is_db_view_state)

/-- Embeds `delete_old_views`: for every view-backed state entry whose table
name is no longer registered, queue a non-atomic drop/backward pair carrying
the entry's recorded definition; accessing the view attributes of an entry
built outside the view-migration context raises `AttributeError`. -/
def delete_old_views (registry : List String)
    (from_models : List ((String × String) × ModelStateE)) :
    Except PyErr (List AddedOperation) :=
  (get_previous_view_models_state from_models).foldlM (fun acc kv => do
    match kv.2.view_attrs with
    | none => .error .attributeError
    | some attrs =>
      if !(registry.contains attrs.table_name) then
        pure (acc ++ [AddedOperation.mk kv.1.1
          (.viewDropRunPython
            ⟨get_drop_migration_class attrs.base_class, "", attrs.table_name,
              attrs.view_engine⟩
            ⟨get_backward_migration_class attrs.base_class, attrs.view_definition,
              attrs.table_name, attrs.view_engine⟩
            false)
          []])
      else pure acc) []

/-- A migration graph with no nodes at all (no prior history). -/
def emptyGraph : MigrationGraph :=
  ⟨fun _ => ⟨[]⟩, fun _ => [], fun _ => []⟩

theorem ok_bind {ε α β : Type} (a : α) (f : α → Except ε β) :
    ((Except.ok a : Except ε α) >>= f) = f a := rfl

/-- Counterexample to claim C5 as stated: a newly added view-backed model
declaring the definition `""` (a string, normalization-equivalent to the
empty previous definition) for an engine, with no prior history, makes
`generate_views_operations` emit zero operations, not exactly one pair. -/
theorem claim_C5_counterexample :
    get_previous_view_definition_state sEx emptyGraph "app" "tbl" "Eng" 1 = .ok ""
    ∧ generate_views_operations sEx emptyGraph 1
        [(("app", "m"), ⟨"tbl", .plain (.mappingDef [("Eng", .strVal "")]), .dbView⟩)]
        (fun _ => []) = .ok [] := ⟨rfl, rfl⟩

/-- Claim C5 (amended): a newly added view-backed model declaring definition
`D` for engine `E`, with no matching view operation anywhere in prior
history (the walker recovers the empty string) and with `D` not
normalization-equivalent to the empty string, yields exactly one
Create/Replace `ViewRunPython` pair for that model and engine, non-atomic,
whose backward action carries the empty string as its definition. -/
theorem claim_C5_new_model_emits_one_pair (s : Settings) (g : MigrationGraph)
    (fuel : Nat) (app name tbl E D : String) (base : BaseClass)
    (bases_of : (String × String) → List BaseRef)
    (hwalk : get_previous_view_definition_state s g app tbl E fuel = .ok "")
    (hD : is_same_views "" (pyStrip D) = false) :
    generate_views_operations s g fuel
        [((app, name), ⟨tbl, .plain (.mappingDef [(E, .strVal D)]), base⟩)]
        bases_of =
      .ok [AddedOperation.mk app
        (.viewRunPython
          ⟨get_forward_migration_class base, stripSemicolons (pyStrip D), tbl, some E⟩
          ⟨get_backward_migration_class base, "", tbl, some E⟩
          false)
        ((bases_of (app, name)).filterMap dependency_for)] := by
  simp only [generate_views_operations, List.foldlM,
    show get_view_definition_from_model s (.plain (.mappingDef [(E, .strVal D)])) =
      (.ok [(E, pyStrip D)] : Except PyErr (List (String × String))) from rfl,
    ok_bind, hwalk, hD, Bool.false_eq_true, if_false, List.nil_append, pure_bind,
    bind_pure]
  rw [show stripSemicolons "" = "" from rfl]
  rfl

/-- Witness for claim C5 on a concrete model with no prior history. -/
theorem claim_C5_new_model_emits_one_pair_witness :
    generate_views_operations sEx emptyGraph 1
        [(("app", "m"), ⟨"tbl", .plain (.mappingDef [("Eng", .strVal "SELECT 1")]),
          .dbView⟩)]
        (fun _ => []) =
      .ok [AddedOperation.mk "app"
        (.viewRunPython
          ⟨get_forward_migration_class .dbView,
            stripSemicolons (pyStrip "SELECT 1"), "tbl", some "Eng"⟩
          ⟨get_backward_migration_class .dbView, "", "tbl", some "Eng"⟩
          false)
        (((fun _ => ([] : List BaseRef)) ("app", "m")).filterMap dependency_for)] :=
  claim_C5_new_model_emits_one_pair sEx emptyGraph 1 "app" "m" "tbl" "Eng"
    "SELECT 1" .dbView (fun _ => []) rfl rfl

/-- The drop pair `delete_old_views` queues for one dropped view state. -/
def emitDrop (kv : (String × String) × ViewAttrs) : AddedOperation :=
  AddedOperation.mk kv.1.1
    (.viewDropRunPython
      ⟨get_drop_migration_class kv.2.base_class, "", kv.2.table_name,
        kv.2.view_engine⟩
      ⟨get_backward_migration_class kv.2.base_class, kv.2.view_definition,
        kv.2.table_name, kv.2.view_engine⟩
      false)
    []

theorem delete_old_views_fold (registry : List String) :
    ∀ (entries : List ((String × String) × ViewAttrs))
      (acc : List AddedOperation),
      (entries.map (fun kv =>
          (kv.1, ModelStateE.mk kv.1.1 kv.1.2 true (some kv.2)))).foldlM
        (fun acc kv => do
          match kv.2.view_attrs with
          | none => (.error .attributeError : Except PyErr (List AddedOperation))
          | some attrs =>
            if !(registry.contains attrs.table_name) then
              pure (acc ++ [AddedOperation.mk kv.1.1
                (.viewDropRunPython
                  ⟨get_drop_migration_class attrs.base_class, "", attrs.table_name,
                    attrs.view_engine⟩
                  ⟨get_backward_migration_class attrs.base_class,
                    attrs.view_definition, attrs.table_name, attrs.view_engine⟩
                  false)
                []])
            else pure acc) acc =
      .ok (acc ++ (entries.filter (fun kv =>
        !(registry.contains kv.2.table_name))).map emitDrop) := by
  intro entries
  induction entries with
  | nil =>
    intro acc
    simp only [List.map_nil, List.foldlM_nil, List.filter_nil, List.append_nil]
    rfl
  | cons kv entries ih =>
    intro acc
    simp only [List.map_cons, List.foldlM, List.filter_cons]
    by_cases hreg : registry.contains kv.2.table_name = true
    · simp only [hreg, Bool.not_true, Bool.false_eq_true, if_false]
      exact ih acc
    · have hreg2 : registry.contains kv.2.table_name = false := by
        revert hreg; cases registry.contains kv.2.table_name <;> simp
      simp only [hreg2, Bool.not_false, if_true]
      exact (ih (acc ++ [emitDrop kv])).trans (by simp)

/-- Claim C6: `delete_old_views` emits, for exactly the view-backed state
entries of the previous snapshot whose table name is no longer in the live
registry, one non-atomic drop pair each (hence one per engine the view was
declared for, since state entries are per engine), whose backward action
carries the entry's recorded definition; non-view state entries are
ignored. -/
theorem claim_C6_delete_old_views :
    (∀ (registry : List String)
      (entries : List ((String × String) × ViewAttrs)),
      delete_old_views registry (entries.map (fun kv =>
        (kv.1, ModelStateE.mk kv.1.1 kv.1.2 true (some kv.2)))) =
        .ok ((entries.filter (fun kv =>
          !(registry.contains kv.2.table_name))).map emitDrop))
    ∧ (∀ (kv : (String × String) × ViewAttrs),
      (emitDrop kv).operation =
        .viewDropRunPython
          ⟨get_drop_migration_class kv.2.base_class, "", kv.2.table_name,
            kv.2.view_engine⟩
          ⟨get_backward_migration_class kv.2.base_class, kv.2.view_definition,
            kv.2.table_name, kv.2.view_engine⟩
          false)
    ∧ (∀ (registry : List String) (kv : (String × String) × ModelStateE)
      (rest : List ((String × String) × ModelStateE)),
      kv.2.is_db_view_state = false →
      delete_old_views registry (kv :: rest) = delete_old_views registry rest) := by
  refine ⟨?_, fun _ => rfl, ?_⟩
  · intro registry entries
    unfold delete_old_views get_previous_view_models_state
    rw [show (entries.map (fun kv =>
        (kv.1, ModelStateE.mk kv.1.1 kv.1.2 true (some kv.2)))).filter
        (fun kv => kv.2.is_db_view_state) = entries.map (fun kv =>
        (kv.1, ModelStateE.mk kv.1.1 kv.1.2 true (some kv.2))) from ?_]
    · exact delete_old_views_fold registry entries []
    · rw [List.filter_eq_self]
      intro a ha
      obtain ⟨kv, _, rfl⟩ := List.mem_map.mp ha
      rfl
  · intro registry kv rest hkv
    unfold delete_old_views get_previous_view_models_state
    rw [List.filter_cons, hkv]
    simp

/-- Concrete view attributes used in witnesses. -/
def attrsEx : ViewAttrs := ⟨some "Eng", "SELECT 1", .dbView, "tbl"⟩

/-- Witness for claim C6 on a concrete dropped view state and a concrete
ordinary model state. -/
theorem claim_C6_delete_old_views_witness :
    delete_old_views ["other_table"] ([(("app", "h"), attrsEx)].map (fun kv =>
      (kv.1, ModelStateE.mk kv.1.1 kv.1.2 true (some kv.2)))) =
      .ok (([(("app", "h"), attrsEx)].filter (fun kv =>
        !(["other_table"].contains kv.2.table_name))).map emitDrop)
    ∧ delete_old_views [] [(("app", "p"), ModelStateE.mk "app" "p" false none)] =
        delete_old_views [] [] :=
  ⟨claim_C6_delete_old_views.1 ["other_table"] [(("app", "h"), attrsEx)],
   claim_C6_delete_old_views.2.2 []
     (("app", "p"), ModelStateE.mk "app" "p" false none) [] rfl⟩

end DjangoDbViews
